import Mathlib

/-!
Verification development for the coalescing pool allocator of libjwutil
(`src/include/jw/alloc.h`).

The allocator tracks free memory chunks in a single binary tree
(`basic_pool_resource::pool_node`): each free chunk stores its own size, two
child links and an `alloc_hi` bit inside its own bytes.  We model a chunk by
its start address and size (both `Nat`, standing for `uintptr_t` values), and
the tree by an inductive type where `nil` stands for `nullptr`.

Layout constants are those of the usual LP64 target:
`sizeof(std::size_t) = 8`, `sizeof(std::uint8_t) = 1`, `alignof(void*) = 8`,
`sizeof(pool_node) = 32` (8 + 2*8 + 1, padded), `alignof(pool_node) = 8`,
`sizeof(std::span<std::byte>) = 16`.

Every function below is a direct transliteration of the corresponding C++
member function; comments cite the source lines.  Pointer comparisons
(`node > this`) become address comparisons; placement-new of a `pool_node`
into a span becomes building a `Chunk`/leaf with `alloc_hi = false` (the
default member initializer at line 222).
-/

namespace JwAlloc

/-- `sizeof(std::size_t)` -/
def szSize : Nat := 8
/-- `sizeof(std::uint8_t)` -/
def szU8 : Nat := 1
/-- `alignof(void*)` -/
def alignVoid : Nat := 8
/-- `sizeof(pool_node)` -/
def szNode : Nat := 32
/-- `alignof(pool_node)` -/
def alignNode : Nat := 8
/-- `sizeof(std::span<std::byte>)`, the element type of the arena's span list -/
def szSpan : Nat := 16

/-- A free chunk: start address, total byte length, and the `alloc_hi` bit
(line 218-222 of alloc.h).  A freshly constructed `pool_node { size }` has
`alloc_hi = false`. -/
structure Chunk where
  addr : Nat
  size : Nat
  ah : Bool
deriving DecidableEq, Repr

/-- The chunk tree.  `nil` is `nullptr`; `node addr size lo hi ah` is a
`pool_node` at address `addr` with `size`, `next[0] = lo`, `next[1] = hi`,
`alloc_hi = ah`. -/
inductive PTree where
  | nil : PTree
  | node (addr size : Nat) (lo hi : PTree) (ah : Bool) : PTree
deriving DecidableEq, Repr

namespace PTree

/-- `pool_node::size_or_zero` (line 276): size of a possibly-null node. -/
def rootSize : PTree → Nat
  | .nil => 0
  | .node _ s _ _ _ => s

/-- Address of the root node (unused for `nil`). -/
def rootAddr : PTree → Nat
  | .nil => 0
  | .node a _ _ _ _ => a

/-- A chunk as a single-node tree: placement-new `pool_node { size }`. -/
def leafOf (c : Chunk) : PTree := .node c.addr c.size .nil .nil c.ah

/-- Number of nodes in a tree; bounds the recursion depth of `combine`. -/
def treeSize : PTree → Nat
  | .nil => 0
  | .node _ _ lo hi _ => treeSize lo + treeSize hi + 1

/-- `pool_node::combine` (lines 227-240), recursion worker.
`combineGo fuel t u` is `t->combine(u)`: the larger-sized root becomes `dst`
(line 232) and the other tree is recursed into the child slot on its address
side (lines 234-238).  The `nil` cases fold the null check of line 236
(`if (dst->next[higher] != nullptr)`) and totalize the `nonnull`
precondition.  Every recursive call of the source descends into a child, so
the total node count bounds the recursion depth; `fuel` makes that bound
explicit (the 0 case is never reached when `fuel ≥ treeSize t + treeSize u`,
see `combineGo_irrel`), keeping the definition structurally recursive and
hence computable by the kernel. -/
def combineGo : Nat → PTree → PTree → PTree
  | 0, t, _ => t
  | fuel + 1, t, u =>
    match t, u with
    | .nil, u => u
    | t, .nil => t
    | .node a1 s1 l1 h1 b1, .node a2 s2 l2 h2 b2 =>
      if s2 > s1 then
        -- swap: dst is the second tree, node the first (line 232)
        if a1 > a2 then
          .node a2 s2 l2 (combineGo fuel h2 (.node a1 s1 l1 h1 b1)) b2
        else
          .node a2 s2 (combineGo fuel l2 (.node a1 s1 l1 h1 b1)) h2 b2
      else
        if a2 > a1 then
          .node a1 s1 l1 (combineGo fuel h1 (.node a2 s2 l2 h2 b2)) b1
        else
          .node a1 s1 (combineGo fuel l1 (.node a2 s2 l2 h2 b2)) h1 b1

/-- `pool_node::combine`, run with its always-sufficient fuel. -/
def combine (t u : PTree) : PTree := combineGo (treeSize t + treeSize u) t u

/-- `pool_node::insert` (lines 243-274).  The incoming `node` is always a
fresh, childless chunk, so it is passed as a `Chunk`.  In the adjacency
branch (lines 251-261) the merged chunk keeps the lower node's address and
`alloc_hi`; `this`'s children are detached (`tmp`), the merged chunk is
re-inserted into `tmp[higher]` and the result re-absorbs `tmp[lower]` via
`combine`.  The `insert .nil` and `combine _ .nil` cases coincide with the
null checks at lines 258-259 and 263. -/
def insert : PTree → Chunk → PTree
  | .nil, c => leafOf c
  | .node a s lo hi b, c =>
    if c.addr > a then
      -- higher = 1, lower = 0; lo = this, hi = node
      if a + s = c.addr then
        combine (insert hi ⟨a, s + c.size, b⟩) lo
      else
        let sub := insert hi c
        if rootSize sub > s then
          -- rotation (lines 265-270): next[1] := sub.next[0]; sub.next[0] := this
          match sub with
          | .nil => .nil
          | .node sa ss sl sh sb => .node sa ss (.node a s lo sl b) sh sb
        else .node a s lo sub b
    else
      -- higher = 0, lower = 1; lo = node, hi = this
      if c.addr + c.size = a then
        combine (insert lo ⟨c.addr, c.size + s, c.ah⟩) hi
      else
        let sub := insert lo c
        if rootSize sub > s then
          -- rotation: next[0] := sub.next[1]; sub.next[1] := this
          match sub with
          | .nil => .nil
          | .node sa ss sl sh sb => .node sa ss sl (.node a s sh hi b) sb
        else .node a s sub hi b

/-- `pool_node::erase` (lines 288-296): remove the root, combining its
children into the replacement subtree. -/
def erase : PTree → PTree
  | .nil => .nil
  | .node _ _ .nil hi _ => hi
  | .node _ _ lo .nil _ => lo
  | .node _ _ lo hi _ => combine lo hi

/-- `pool_node::replace` (lines 298-307): the fresh remainder chunk `c`
either inherits the root's children (when strictly larger than both) or goes
through `erase` + `combine`. -/
def replace (t : PTree) (c : Chunk) : PTree :=
  match t with
  | .nil => leafOf c
  | .node _ _ lo hi _ =>
    if c.size > max (rootSize lo) (rootSize hi) then .node c.addr c.size lo hi c.ah
    else combine (erase t) (leafOf c)

/-- `pool_node::resize` (lines 309-321): shrink the root in place; if the
larger child now exceeds the new size, detach and re-combine.  The
`max != nullptr` test of line 313 is subsumed by `rootSize .nil = 0`. -/
def resize (t : PTree) (s' : Nat) : PTree :=
  match t with
  | .nil => .nil
  | .node a _ lo hi b =>
    let mn := if rootSize lo > rootSize hi then hi else lo
    let mx := if rootSize lo > rootSize hi then lo else hi
    if rootSize mx > s' then
      combine (combine mx mn) (.node a s' .nil .nil b)
    else .node a s' lo hi b

/-- `root->alloc_hi ^= true` (line 385). -/
def flipAH : PTree → PTree
  | .nil => .nil
  | .node a s lo hi b => .node a s lo hi (!b)

/-- All chunks in the tree, in preorder. -/
def chunkList : PTree → List Chunk
  | .nil => []
  | .node a s lo hi b => ⟨a, s, b⟩ :: (chunkList lo ++ chunkList hi)

/-- Number of chunks in the tree. -/
def chunkCount (t : PTree) : Nat := (chunkList t).length

/-- Total free bytes in the tree. -/
def sumSizes : PTree → Nat
  | .nil => 0
  | .node _ s lo hi _ => s + sumSizes lo + sumSizes hi

/-- The heap-by-size invariant: every node is at least as large as each of
its children. -/
def heap : PTree → Bool
  | .nil => true
  | .node _ s lo hi _ =>
    decide (rootSize lo ≤ s) && decide (rootSize hi ≤ s) && heap lo && heap hi

end PTree

open PTree

/-- The `aligned_ptr` lambda of `allocate_impl` (lines 345-351).  For the
power-of-two alignments used at every call site, `a & -align` is
`a - a % align`. -/
def alignedPtr (p align : Nat) (down : Bool) : Nat :=
  let b := p - p % align
  if down = false ∧ b ≠ p then b + align else b

/-- One live allocation, recording the values `allocate_impl` wrote into the
allocation header (lines 395-397): `ptr` is the returned aligned pointer,
`start` the chunk start `p` (so `ptr - start` is the offset byte stored at
`ptr - 1`), `size` the chunk size stored at `start`.  `do_deallocate` and
`size()` read these header bytes back; nothing overwrites them while the
allocation is live, so the record models that memory faithfully. -/
structure AllocRec where
  ptr : Nat
  start : Nat
  size : Nat
deriving DecidableEq, Repr

/-- State of a `basic_pool_resource`: the chunk tree root and the live
allocations (whose length is `num_allocs`). -/
structure PoolState where
  root : PTree
  allocs : List AllocRec
deriving DecidableEq, Repr

/-- A default-constructed `basic_pool_resource`. -/
def poolEmpty : PoolState := ⟨.nil, []⟩

/-- `grow_impl` (lines 330-340): placement-new a `pool_node` over the span
and insert it (when `root == nullptr` the node becomes the root directly,
which coincides with `insert .nil`). -/
def growPool (st : PoolState) (addr bytes : Nat) : PoolState :=
  ⟨insert st.root ⟨addr, bytes, false⟩, st.allocs⟩

/-- `max_chunk_size` (line 196). -/
def maxChunkSize (st : PoolState) : Nat := rootSize st.root

/-- `max_size` (lines 199-207). -/
def maxSize (st : PoolState) (alignment : Nat) : Nat :=
  let size := maxChunkSize st
  let overhead := alignment + szSize + szU8
  if size < overhead then 0
  else
    let size := size - overhead
    if size < szNode + alignNode then 0 else size

/-- `size(void* p)` (lines 210-215): the offset byte at `p - 1` and the size
field at the chunk start are read back from the allocation header. -/
def sizeQuery (r : AllocRec) : Nat := r.size - (r.ptr - r.start)

/-- Alignment adjustment of `allocate_impl` line 353: `a = max(a, alignof(void*))`. -/
def adjustA (a : Nat) : Nat := max a alignVoid

/-- Size adjustment of `allocate_impl` lines 354-355: add header and
alignment overhead, clamp to the minimum chunk size. -/
def adjustN (n a : Nat) : Nat :=
  max (n + adjustA a + szSize + szU8) (szNode + alignNode)

/-- Common tail of `allocate_impl` (lines 395-398): write the header in
front of the aligned pointer and return it.  `p` is the allocated chunk
start, `pSize` the (post-split) chunk size, `a` the adjusted alignment. -/
def finishAlloc (st : PoolState) (root' : PTree) (p pSize a : Nat) :
    Nat × PoolState :=
  let pAligned := alignedPtr (p + szSize + szU8) a false
  (pAligned, ⟨root', st.allocs ++ [⟨pAligned, p, pSize⟩]⟩)

/-- One pass of `allocate_impl`'s retry loop body (lines 361-393) on already
adjusted `n`, `a`: `none` means the `auto_grow` path was reached (tree empty
or largest chunk too small).  The three success paths are: split keeping the
low end (`alloc_hi` false: `replace` with a fresh remainder node at `q`),
split keeping the high end (`alloc_hi` true: `resize` to the low part,
allocation taken from `q` upward), or `erase` of the whole chunk. -/
def allocAttempt (st : PoolState) (n a : Nat) : Option (Nat × PoolState) :=
  match st.root with
  | .nil => none
  | t@(.node raddr rsize _ _ rah) =>
    if rsize > n + szNode + alignNode then
      if rah then
        -- split at the high end: q = aligned_ptr(end - n, alignof(pool_node), down)
        let q := alignedPtr (raddr + rsize - n) alignNode true
        let qSize := rsize - (q - raddr)  -- size of the high part [q, end)
        let loSize := rsize - qSize       -- p_size -= q_size, then swapped
        some (finishAlloc st (flipAH (resize t loSize)) q qSize a)
      else
        -- split at the low end: q = aligned_ptr(begin + n, alignof(pool_node))
        let q := alignedPtr (raddr + n) alignNode false
        let qSize := rsize - (q - raddr)  -- remainder chunk [q, end)
        let pSize := rsize - qSize        -- allocated chunk [begin, q)
        some (finishAlloc st (flipAH (replace t ⟨q, qSize, false⟩)) raddr pSize a)
    else if rsize ≥ n then
      some (finishAlloc st (erase t) raddr rsize a)
    else none

/-- `allocate_impl` on a bare `basic_pool_resource`, whose `auto_grow`
(line 421) always throws `std::bad_alloc`; `none` is that failure. -/
def allocateBare (st : PoolState) (n a : Nat) : Option (Nat × PoolState) :=
  allocAttempt st (adjustN n a) (adjustA a)

/-- `do_deallocate` (lines 406-412): recover the chunk start and size from
the allocation header (see `AllocRec`), re-insert the chunk via `grow`, and
drop the live allocation. -/
def deallocate (st : PoolState) (r : AllocRec) : PoolState :=
  growPool ⟨st.root, st.allocs.erase r⟩ r.start r.size

/-! ### The owning arena (`pool_resource`, lines 430-538) -/

/-- State of a `pool_resource`: the underlying pool, the span list, and the
upstream block currently backing the span-list array (`pools.data()`,
`none` = `nullptr`). -/
structure ArenaState where
  pool : PoolState
  pools : List (Nat × Nat)
  arr : Option (Nat × Nat)
deriving DecidableEq, Repr

/-- A default-constructed `pool_resource`. -/
def arenaEmpty : ArenaState := ⟨poolEmpty, [], none⟩

/-- `pool_resource::size` (lines 458-464): total bytes of all spans. -/
def arenaSize (ar : ArenaState) : Nat := (ar.pools.map Prod.snd).sum

/-- Ledger of live upstream allocations, as (address, bytes) pairs. -/
structure Upstream where
  live : Multiset (Nat × Nat)
deriving DecidableEq

/-- The outcome of `grow_alloc`: `ok = false` models an exception
propagating out (in which case `ar` is the arena as the caller sees it). -/
structure GrowOut where
  ok : Bool
  ar : ArenaState
  up : Upstream
deriving DecidableEq

/-- `grow_alloc` (lines 498-522).  `r1` is the upstream's answer to
`allocate(bytes, alignof(pool_node))` for the new span, `r2` its answer to
`allocate(sizeof(pool_type) * (pools.size() + 1), alignof(pool_type))` for
the enlarged span-list array (`none` = the call throws).  If the second
allocation throws, the first is deallocated and the exception propagates
(lines 508-512); only after both succeed are the span list, the array and
the chunk tree updated. -/
def growAlloc (ar : ArenaState) (u : Upstream) (bytes : Nat)
    (r1 r2 : Option Nat) : GrowOut :=
  let bytes := max bytes szNode
  match r1 with
  | none => ⟨false, ar, u⟩
  | some p =>
    let u1 : Upstream := ⟨(p, bytes) ::ₘ u.live⟩
    match r2 with
    | none => ⟨false, ar, ⟨u1.live.erase (p, bytes)⟩⟩
    | some q =>
      let asz := szSpan * (ar.pools.length + 1)
      let u2 : Upstream := ⟨(q, asz) ::ₘ u1.live⟩
      let u3 : Upstream :=
        match ar.arr with
        | some (oa, ob) => ⟨u2.live.erase (oa, ob)⟩
        | none => u2
      ⟨true, ⟨growPool ar.pool p bytes, ar.pools ++ [(p, bytes)], some (q, asz)⟩, u3⟩

/-- `pool_resource::auto_grow` (lines 529-532): the size passed to `grow`. -/
def autoGrowReq (ar : ArenaState) (needed : Nat) : Nat :=
  max (needed * 2) (arenaSize ar / 2)

/-- `allocate_impl`'s retry loop for a `pool_resource` with a non-failing
upstream.  `u i` gives the upstream's addresses for the two allocations of
the `i`-th `grow_alloc`; `reqs` accumulates the sizes passed to `grow` by
`auto_grow`.  Fuel bounds the `goto retry` loop. -/
def allocArenaGo : Nat → ArenaState → Nat → Nat → (Nat → Nat × Nat) → Nat →
    List Nat → Option (Nat × ArenaState × List Nat)
  | 0, _, _, _, _, _, _ => none
  | fuel + 1, ar, n, a, u, ui, reqs =>
    match allocAttempt ar.pool n a with
    | some (ptr, p') => some (ptr, ⟨p', ar.pools, ar.arr⟩, reqs)
    | none =>
      let req := autoGrowReq ar n
      let ar' := (growAlloc ar ⟨0⟩ req (some (u ui).1) (some (u ui).2)).ar
      allocArenaGo fuel ar' n a u (ui + 1) (reqs ++ [req])

/-- `pool_resource` allocation entry point (adjustments of lines 353-355,
then the retry loop). -/
def allocArena (fuel : Nat) (ar : ArenaState) (n a : Nat) (u : Nat → Nat × Nat) :
    Option (Nat × ArenaState × List Nat) :=
  allocArenaGo fuel ar (adjustN n a) (adjustA a) u 0 []

/-! ### Operation sequences -/

/-- Two address intervals are disjoint. -/
def disjointI (a s b t : Nat) : Prop := a + s ≤ b ∨ b + t ≤ a

instance (a s b t : Nat) : Decidable (disjointI a s b t) := instDecidableOr

/-- A span handed to `grow` must be fresh memory: disjoint from every free
chunk and every live allocation. -/
def freshSpan (st : PoolState) (addr bytes : Nat) : Bool :=
  (chunkList st.root).all (fun c => decide (disjointI addr bytes c.addr c.size)) &&
  st.allocs.all (fun r => decide (disjointI addr bytes r.start r.size))

/-- One successful `allocate` or `deallocate` call on a pool resource. -/
inductive Step : PoolState → PoolState → Prop where
  | alloc (st : PoolState) (n a ptr : Nat) (st' : PoolState)
      (h : allocateBare st n a = some (ptr, st')) : Step st st'
  | dealloc (st : PoolState) (r : AllocRec) (h : r ∈ st.allocs) :
      Step st (deallocate st r)

/-- A `Step`, or a `grow` with a fresh span large enough to hold the
`pool_node` header that `grow_impl` placement-news into it. -/
inductive StepG : PoolState → PoolState → Prop where
  | lift {st st' : PoolState} (h : Step st st') : StepG st st'
  | grow (st : PoolState) (addr bytes : Nat) (h1 : szNode ≤ bytes)
      (h2 : freshSpan st addr bytes = true) : StepG st (growPool st addr bytes)

/-- A scripted operation, for exhibiting concrete executions. -/
inductive POp where
  | alloc (n a : Nat)
  | free (i : Nat)
  | grow (addr bytes : Nat)
deriving DecidableEq, Repr

/-- Run one scripted operation; `none` if it is not a legal successful step. -/
def runOp (st : PoolState) : POp → Option PoolState
  | .alloc n a => (allocateBare st n a).map Prod.snd
  | .free i => (st.allocs[i]?).map (deallocate st)
  | .grow addr bytes =>
    if szNode ≤ bytes ∧ freshSpan st addr bytes = true
    then some (growPool st addr bytes) else none

/-- Run a script of operations. -/
def runOps : PoolState → List POp → Option PoolState
  | st, [] => some st
  | st, op :: ops => (runOp st op).bind (fun st' => runOps st' ops)

/-- Does a script avoid `grow`? -/
def noGrow : List POp → Bool
  | [] => true
  | .grow _ _ :: _ => false
  | _ :: ops => noGrow ops

/-! ### Lemmas about the chunk tree operations -/

namespace PTree

/-- Is some chunk in the tree immediately followed (in memory) by another
chunk also in the tree? -/
def hasAdjacent (t : PTree) : Bool :=
  (chunkList t).any (fun c => (chunkList t).any (fun d => c.addr + c.size == d.addr))

/-- A 22-operation allocate/deallocate script (found by randomized search)
that drives a pool grown with the single span `[0, 768)` into a tree holding
two physically contiguous chunks, and back to zero outstanding allocations
without them coalescing. -/
def cxOps : List POp :=
  [.alloc 1 8, .alloc 112 8, .free 0, .alloc 56 8, .alloc 1 8, .alloc 80 8,
   .free 1, .alloc 96 8, .alloc 48 8, .alloc 1 8, .free 0, .alloc 56 8,
   .free 4, .free 3, .alloc 79 8, .free 0, .alloc 32 8, .free 3, .free 2,
   .free 2, .free 0, .free 0]

/-- The pool state `cxOps` ends in: zero outstanding allocations, but two
contiguous free chunks `[0, 632)` and `[632, 768)` that never coalesced. -/
def cxFinal : PoolState :=
  ⟨.node 0 632 .nil (.node 632 136 .nil .nil false) true, []⟩

/-- A fresh pool holding one 4096-byte chunk at address 0 (example state). -/
def exSt : PoolState := ⟨.node 0 4096 .nil .nil false, []⟩

/-- The state after `allocate(100, 8)` on `exSt`: the chunk was split at the
low end, the 120-byte front part was allocated with the user pointer at 16,
and the 3976-byte remainder became the root. -/
def exSt2 : PoolState := ⟨.node 120 3976 .nil .nil true, [⟨16, 0, 120⟩]⟩

/-- Total bytes held by live allocations. -/
def recSum (l : List AllocRec) : Nat := (l.map AllocRec.size).sum

/-- The pool-level invariant carried along every execution: the chunk tree
is a size-heap, and every live allocation has a nonempty chunk. -/
def PoolInv (st : PoolState) : Prop :=
  heap st.root = true ∧ ∀ r ∈ st.allocs, 1 ≤ r.size

/-- `next[0]` of a possibly-null node. -/
def tLo : PTree → PTree
  | .nil => .nil
  | .node _ _ lo _ _ => lo

/-- `next[1]` of a possibly-null node. -/
def tHi : PTree → PTree
  | .nil => .nil
  | .node _ _ _ hi _ => hi

@[simp] theorem rootSize_nil : rootSize .nil = 0 := rfl

@[simp] theorem rootSize_node (a s : Nat) (lo hi : PTree) (b : Bool) :
    rootSize (.node a s lo hi b) = s := rfl

@[simp] theorem tLo_nil : tLo .nil = .nil := rfl

@[simp] theorem tLo_node (a s : Nat) (lo hi : PTree) (b : Bool) :
    tLo (.node a s lo hi b) = lo := rfl

@[simp] theorem tHi_nil : tHi .nil = .nil := rfl

@[simp] theorem tHi_node (a s : Nat) (lo hi : PTree) (b : Bool) :
    tHi (.node a s lo hi b) = hi := rfl

@[simp] theorem heap_nil : heap .nil = true := rfl

theorem heap_node {a s : Nat} {lo hi : PTree} {b : Bool} :
    heap (.node a s lo hi b) = true ↔
    rootSize lo ≤ s ∧ rootSize hi ≤ s ∧ heap lo = true ∧ heap hi = true := by
  simp [heap, and_assoc]

theorem heap_leafOf (c : Chunk) : heap (leafOf c) = true := by
  simp [leafOf, heap_node, rootSize]

@[simp] theorem sumSizes_nil : sumSizes .nil = 0 := rfl

@[simp] theorem sumSizes_node (a s : Nat) (lo hi : PTree) (b : Bool) :
    sumSizes (.node a s lo hi b) = s + sumSizes lo + sumSizes hi := rfl

@[simp] theorem count_nil : chunkCount .nil = 0 := rfl

@[simp] theorem count_node (a s : Nat) (lo hi : PTree) (b : Bool) :
    chunkCount (.node a s lo hi b) = chunkCount lo + chunkCount hi + 1 := by
  simp [chunkCount, chunkList]

@[simp] theorem treeSize_nil : treeSize .nil = 0 := rfl

@[simp] theorem treeSize_node (a s : Nat) (lo hi : PTree) (b : Bool) :
    treeSize (.node a s lo hi b) = treeSize lo + treeSize hi + 1 := rfl

/-- The fuel of `combineGo` is irrelevant once it covers the node count. -/
theorem combineGo_irrel (f1 : Nat) : ∀ (f2 : Nat) (t u : PTree),
    treeSize t + treeSize u ≤ f1 → treeSize t + treeSize u ≤ f2 →
    combineGo f1 t u = combineGo f2 t u := by
  induction f1 with
  | zero =>
    intro f2 t u h1 h2
    cases t with
    | node a s lo hi b => simp at h1
    | nil =>
      cases u with
      | node a s lo hi b => simp at h1
      | nil => cases f2 with
        | zero => rfl
        | succ g => rfl
  | succ f ih =>
    intro f2 t u h1 h2
    cases f2 with
    | zero =>
      cases t with
      | node a s lo hi b => simp at h2
      | nil =>
        cases u with
        | node a s lo hi b => simp at h2
        | nil => rfl
    | succ g =>
      cases t with
      | nil => simp only [combineGo]
      | node a1 s1 l1 h1t b1 =>
        cases u with
        | nil => simp only [combineGo]
        | node a2 s2 l2 h2t b2 =>
          simp only [treeSize_node] at h1 h2
          simp only [combineGo]
          have e1 := ih g h2t (.node a1 s1 l1 h1t b1) (by simp; omega) (by simp; omega)
          have e2 := ih g l2 (.node a1 s1 l1 h1t b1) (by simp; omega) (by simp; omega)
          have e3 := ih g h1t (.node a2 s2 l2 h2t b2) (by simp; omega) (by simp; omega)
          have e4 := ih g l1 (.node a2 s2 l2 h2t b2) (by simp; omega) (by simp; omega)
          rw [e1, e2, e3, e4]

theorem combineGo_eq_combine (fuel : Nat) (t u : PTree)
    (h : treeSize t + treeSize u ≤ fuel) : combineGo fuel t u = combine t u :=
  combineGo_irrel fuel (treeSize t + treeSize u) t u h (Nat.le_refl _)

@[simp] theorem combine_nil_left (u : PTree) : combine .nil u = u := by
  have h := combineGo_eq_combine (treeSize u + 1) .nil u (by simp)
  rw [← h]
  simp only [combineGo]

@[simp] theorem combine_nil_right (t : PTree) : combine t .nil = t := by
  have h := combineGo_eq_combine (treeSize t + 1) t .nil (by simp)
  rw [← h]
  cases t <;> simp only [combineGo]

/-- One-step unfolding of `combine` on two nodes (lines 231-239). -/
theorem combine_node (a1 s1 : Nat) (l1 h1 : PTree) (b1 : Bool)
    (a2 s2 : Nat) (l2 h2 : PTree) (b2 : Bool) :
    combine (.node a1 s1 l1 h1 b1) (.node a2 s2 l2 h2 b2) =
      if s2 > s1 then
        if a1 > a2 then
          .node a2 s2 l2 (combine h2 (.node a1 s1 l1 h1 b1)) b2
        else
          .node a2 s2 (combine l2 (.node a1 s1 l1 h1 b1)) h2 b2
      else
        if a2 > a1 then
          .node a1 s1 l1 (combine h1 (.node a2 s2 l2 h2 b2)) b1
        else
          .node a1 s1 (combine l1 (.node a2 s2 l2 h2 b2)) h1 b1 := by
  have hfuel : treeSize (PTree.node a1 s1 l1 h1 b1) + treeSize (PTree.node a2 s2 l2 h2 b2)
      = (treeSize l1 + treeSize h1 + treeSize l2 + treeSize h2 + 1) + 1 := by
    simp; omega
  unfold combine
  rw [hfuel]
  show (if s2 > s1 then
      if a1 > a2 then
        PTree.node a2 s2 l2 (combineGo (treeSize l1 + treeSize h1 + treeSize l2 + treeSize h2 + 1)
          h2 (.node a1 s1 l1 h1 b1)) b2
      else
        PTree.node a2 s2 (combineGo (treeSize l1 + treeSize h1 + treeSize l2 + treeSize h2 + 1)
          l2 (.node a1 s1 l1 h1 b1)) h2 b2
    else
      if a2 > a1 then
        PTree.node a1 s1 l1 (combineGo (treeSize l1 + treeSize h1 + treeSize l2 + treeSize h2 + 1)
          h1 (.node a2 s2 l2 h2 b2)) b1
      else
        PTree.node a1 s1 (combineGo (treeSize l1 + treeSize h1 + treeSize l2 + treeSize h2 + 1)
          l1 (.node a2 s2 l2 h2 b2)) h1 b1) = _
  rw [combineGo_eq_combine _ _ _ (by simp; omega),
    combineGo_eq_combine _ _ _ (by simp; omega),
    combineGo_eq_combine _ _ _ (by simp; omega),
    combineGo_eq_combine _ _ _ (by simp; omega)]
  rfl

theorem sum_combine (t u : PTree) :
    sumSizes (combine t u) = sumSizes t + sumSizes u := by
  generalize hN : treeSize t + treeSize u = N
  induction N using Nat.strong_induction_on generalizing t u with
  | _ N ih =>
    cases t with
    | nil => simp
    | node a1 s1 l1 h1 b1 =>
      cases u with
      | nil => simp
      | node a2 s2 l2 h2 b2 =>
        subst hN
        rw [combine_node]
        by_cases hs : s2 > s1 <;> by_cases ha : a1 > a2 <;>
          by_cases ha2 : a2 > a1 <;>
          simp only [if_pos, if_neg, hs, ha, ha2, ite_true, ite_false,
            sumSizes_node] <;>
        · first
          | (rw [ih _ (by simp; omega) _ _ rfl]; simp only [sumSizes_node]; omega)

theorem count_combine (t u : PTree) :
    chunkCount (combine t u) = chunkCount t + chunkCount u := by
  generalize hN : treeSize t + treeSize u = N
  induction N using Nat.strong_induction_on generalizing t u with
  | _ N ih =>
    cases t with
    | nil => simp
    | node a1 s1 l1 h1 b1 =>
      cases u with
      | nil => simp
      | node a2 s2 l2 h2 b2 =>
        subst hN
        rw [combine_node]
        by_cases hs : s2 > s1 <;> by_cases ha : a1 > a2 <;>
          by_cases ha2 : a2 > a1 <;>
          simp only [if_pos, if_neg, hs, ha, ha2, ite_true, ite_false,
            count_node] <;>
        · first
          | (rw [ih _ (by simp; omega) _ _ rfl]; simp only [count_node]; omega)

/-- `combine` of two size-heaps is a size-heap whose root carries the larger
of the two root sizes. -/
theorem combine_main (t u : PTree) : heap t = true → heap u = true →
    heap (combine t u) = true ∧
    rootSize (combine t u) = max (rootSize t) (rootSize u) := by
  generalize hN : treeSize t + treeSize u = N
  induction N using Nat.strong_induction_on generalizing t u with
  | _ N ih =>
    intro ht hu
    cases t with
    | nil => simpa using hu
    | node a1 s1 l1 h1 b1 =>
      cases u with
      | nil => simpa using ht
      | node a2 s2 l2 h2 b2 =>
        subst hN
        rw [heap_node] at ht hu
        obtain ⟨ht1, ht2, htl, hth⟩ := ht
        obtain ⟨hu1, hu2, hul, huh⟩ := hu
        rw [combine_node]
        by_cases hs : s2 > s1
        · rw [if_pos hs]
          by_cases ha : a1 > a2
          · rw [if_pos ha]
            obtain ⟨hch, hh⟩ := ih _ (by simp; omega) h2 (.node a1 s1 l1 h1 b1)
              rfl huh (heap_node.2 ⟨ht1, ht2, htl, hth⟩)
            simp only [rootSize_node] at hh
            simp only [heap_node, rootSize_node]
            exact ⟨⟨hu1, by omega, hul, hch⟩, by omega⟩
          · rw [if_neg ha]
            obtain ⟨hch, hh⟩ := ih _ (by simp; omega) l2 (.node a1 s1 l1 h1 b1)
              rfl hul (heap_node.2 ⟨ht1, ht2, htl, hth⟩)
            simp only [rootSize_node] at hh
            simp only [heap_node, rootSize_node]
            exact ⟨⟨by omega, hu2, hch, huh⟩, by omega⟩
        · rw [if_neg hs]
          by_cases ha : a2 > a1
          · rw [if_pos ha]
            obtain ⟨hch, hh⟩ := ih _ (by simp; omega) h1 (.node a2 s2 l2 h2 b2)
              rfl hth (heap_node.2 ⟨hu1, hu2, hul, huh⟩)
            simp only [rootSize_node] at hh
            simp only [heap_node, rootSize_node]
            exact ⟨⟨ht1, by omega, htl, hch⟩, by omega⟩
          · rw [if_neg ha]
            obtain ⟨hch, hh⟩ := ih _ (by simp; omega) l1 (.node a2 s2 l2 h2 b2)
              rfl htl (heap_node.2 ⟨hu1, hu2, hul, huh⟩)
            simp only [rootSize_node] at hh
            simp only [heap_node, rootSize_node]
            exact ⟨⟨by omega, ht2, hch, hth⟩, by omega⟩

/-- When no size swap happens in `combine t u`, the children of the result
stay bounded by any size bound that covered `t`'s children and `u`. -/
theorem combine_childBound (t u : PTree) (ht : heap t = true) (hu : heap u = true)
    (m : Nat) (hr : rootSize u ≤ rootSize t)
    (hbl : rootSize (tLo t) ≤ m) (hbh : rootSize (tHi t) ≤ m)
    (hbu : rootSize u ≤ m) :
    rootSize (tLo (combine t u)) ≤ m ∧ rootSize (tHi (combine t u)) ≤ m := by
  match t, u with
  | .nil, .nil =>
    rw [combine_nil_left]
    exact ⟨hbl, hbh⟩
  | .node a1 s1 l1 h1 b1, .nil => simpa using ⟨hbl, hbh⟩
  | .nil, .node a2 s2 l2 h2 b2 =>
    rw [heap_node] at hu
    simp only [rootSize_node, rootSize_nil] at hr hbu
    simp only [combine_nil_left, tLo_node, tHi_node]
    omega
  | .node a1 s1 l1 h1 b1, .node a2 s2 l2 h2 b2 =>
    rw [heap_node] at ht hu
    simp only [rootSize_node] at hr hbu
    simp only [tLo_node, tHi_node] at hbl hbh
    have hs : ¬ (s2 > s1) := by omega
    have hcl := (combine_main l1 (.node a2 s2 l2 h2 b2) ht.2.2.1
      (heap_node.2 ⟨hu.1, hu.2.1, hu.2.2⟩)).2
    have hch := (combine_main h1 (.node a2 s2 l2 h2 b2) ht.2.2.2
      (heap_node.2 ⟨hu.1, hu.2.1, hu.2.2⟩)).2
    simp only [rootSize_node] at hcl hch
    rw [combine_node, if_neg hs]
    by_cases ha : a2 > a1
    · simp only [if_pos ha, tLo_node, tHi_node]; omega
    · simp only [if_neg ha, tLo_node, tHi_node]; omega

theorem combine_ne_nil (t u : PTree) (h : t ≠ .nil) : combine t u ≠ .nil := by
  match t, u with
  | .node a1 s1 l1 h1 b1, .nil => simp
  | .node a1 s1 l1 h1 b1, .node a2 s2 l2 h2 b2 =>
    rw [combine_node]
    split <;> split <;> simp

theorem insert_ne_nil (t : PTree) (c : Chunk) : insert t c ≠ .nil := by
  match t with
  | .nil => simp [insert, leafOf]
  | .node a s lo hi b =>
    simp only [insert]
    split
    · split
      · exact combine_ne_nil _ lo (insert_ne_nil hi _)
      · split
        · split
          · next heq => exact absurd heq (insert_ne_nil hi c)
          · simp
        · simp
    · split
      · exact combine_ne_nil _ hi (insert_ne_nil lo _)
      · split
        · split
          · next heq => exact absurd heq (insert_ne_nil lo c)
          · simp
        · simp

/-- Main preservation lemma for `insert`: inserting a nonempty chunk into a
size-heap yields a size-heap, whose root is at least as large as both the old
root and the chunk, and whose children are no larger than the old root. -/
theorem insert_main (t : PTree) (c : Chunk) (hc : 1 ≤ c.size) :
    heap t = true →
    heap (insert t c) = true ∧
    max (rootSize t) c.size ≤ rootSize (insert t c) ∧
    rootSize (tLo (insert t c)) ≤ rootSize t ∧
    rootSize (tHi (insert t c)) ≤ rootSize t := by
  induction t generalizing c with
  | nil => intro _; simp [insert, leafOf, heap_node]
  | node a s lo hi b ihlo ihhi =>
    intro ht
    rw [heap_node] at ht
    obtain ⟨h1, h2, hlo, hhi⟩ := ht
    simp only [insert]
    by_cases hgt : c.addr > a
    · simp only [if_pos hgt]
      by_cases hadj : a + s = c.addr
      · simp only [if_pos hadj]
        obtain ⟨ih1, ih2, ih3, ih4⟩ := ihhi ⟨a, s + c.size, b⟩ (by simp; omega) hhi
        simp only [rootSize_node] at ih2
        have hge : s + c.size ≤ rootSize (insert hi ⟨a, s + c.size, b⟩) := by
          simp at ih2; omega
        obtain ⟨hcomb, hcr⟩ := combine_main _ lo ih1 hlo
        have hcb := combine_childBound (insert hi ⟨a, s + c.size, b⟩) lo ih1 hlo s
          (by omega) (by omega) (by omega) h1
        simp only [rootSize_node]
        exact ⟨hcomb, by omega, hcb.1, hcb.2⟩
      · simp only [if_neg hadj]
        obtain ⟨ih1, ih2, ih3, ih4⟩ := ihhi c hc hhi
        by_cases hrot : rootSize (insert hi c) > s
        · simp only [if_pos hrot]
          cases hsub : insert hi c with
          | nil => exact absurd hsub (insert_ne_nil hi c)
          | node sa ss sl sh sb =>
            rw [hsub] at ih1 ih2 ih3 ih4 hrot
            rw [heap_node] at ih1
            simp only [rootSize_node, tLo_node, tHi_node] at ih2 ih3 ih4 hrot
            simp only [rootSize_node, tLo_node, tHi_node, heap_node]
            refine ⟨⟨by omega, ih1.2.1, ⟨h1, by omega, hlo, ih1.2.2.1⟩, ih1.2.2.2⟩,
              by omega, by omega, by omega⟩
        · simp only [if_neg hrot]
          simp only [rootSize_node, tLo_node, tHi_node, heap_node]
          exact ⟨⟨h1, by omega, hlo, ih1⟩, by omega, by omega, by omega⟩
    · simp only [if_neg hgt]
      by_cases hadj : c.addr + c.size = a
      · simp only [if_pos hadj]
        obtain ⟨ih1, ih2, ih3, ih4⟩ := ihlo ⟨c.addr, c.size + s, c.ah⟩ (by simp; omega) hlo
        simp only [rootSize_node] at ih2
        have hge : c.size + s ≤ rootSize (insert lo ⟨c.addr, c.size + s, c.ah⟩) := by
          simp at ih2; omega
        obtain ⟨hcomb, hcr⟩ := combine_main _ hi ih1 hhi
        have hcb := combine_childBound (insert lo ⟨c.addr, c.size + s, c.ah⟩) hi ih1 hhi s
          (by omega) (by omega) (by omega) h2
        simp only [rootSize_node]
        exact ⟨hcomb, by omega, hcb.1, hcb.2⟩
      · simp only [if_neg hadj]
        obtain ⟨ih1, ih2, ih3, ih4⟩ := ihlo c hc hlo
        by_cases hrot : rootSize (insert lo c) > s
        · simp only [if_pos hrot]
          cases hsub : insert lo c with
          | nil => exact absurd hsub (insert_ne_nil lo c)
          | node sa ss sl sh sb =>
            rw [hsub] at ih1 ih2 ih3 ih4 hrot
            rw [heap_node] at ih1
            simp only [rootSize_node, tLo_node, tHi_node] at ih2 ih3 ih4 hrot
            simp only [rootSize_node, tLo_node, tHi_node, heap_node]
            refine ⟨⟨ih1.1, by omega, ih1.2.2.1, ⟨by omega, h2, ih1.2.2.2, hhi⟩⟩,
              by omega, by omega, by omega⟩
        · simp only [if_neg hrot]
          simp only [rootSize_node, tLo_node, tHi_node, heap_node]
          exact ⟨⟨by omega, h2, ih1, hhi⟩, by omega, by omega, by omega⟩

theorem sum_insert (t : PTree) (c : Chunk) :
    sumSizes (insert t c) = sumSizes t + c.size := by
  induction t generalizing c with
  | nil => simp [insert, leafOf]
  | node a s lo hi b ihlo ihhi =>
    simp only [insert]
    by_cases hgt : c.addr > a
    · simp only [if_pos hgt]
      by_cases hadj : a + s = c.addr
      · simp only [if_pos hadj, sum_combine, ihhi]
        simp; omega
      · simp only [if_neg hadj]
        by_cases hrot : rootSize (insert hi c) > s
        · simp only [if_pos hrot]
          cases hsub : insert hi c with
          | nil => exact absurd hsub (insert_ne_nil hi c)
          | node sa ss sl sh sb =>
            have := ihhi c
            rw [hsub] at this
            simp only [sumSizes_node] at this ⊢
            omega
        · simp only [if_neg hrot, sumSizes_node, ihhi]; omega
    · simp only [if_neg hgt]
      by_cases hadj : c.addr + c.size = a
      · simp only [if_pos hadj, sum_combine, ihlo]
        simp; omega
      · simp only [if_neg hadj]
        by_cases hrot : rootSize (insert lo c) > s
        · simp only [if_pos hrot]
          cases hsub : insert lo c with
          | nil => exact absurd hsub (insert_ne_nil lo c)
          | node sa ss sl sh sb =>
            have := ihlo c
            rw [hsub] at this
            simp only [sumSizes_node] at this ⊢
            omega
        · simp only [if_neg hrot, sumSizes_node, ihlo]; omega

theorem count_insert_le (t : PTree) (c : Chunk) :
    chunkCount (insert t c) ≤ chunkCount t + 1 := by
  induction t generalizing c with
  | nil => simp [insert, leafOf, chunkCount, chunkList]
  | node a s lo hi b ihlo ihhi =>
    simp only [insert]
    by_cases hgt : c.addr > a
    · simp only [if_pos hgt]
      by_cases hadj : a + s = c.addr
      · simp only [if_pos hadj, count_combine]
        have := ihhi ⟨a, s + c.size, b⟩
        simp only [count_node]
        omega
      · simp only [if_neg hadj]
        by_cases hrot : rootSize (insert hi c) > s
        · simp only [if_pos hrot]
          cases hsub : insert hi c with
          | nil => exact absurd hsub (insert_ne_nil hi c)
          | node sa ss sl sh sb =>
            have := ihhi c
            rw [hsub] at this
            simp only [count_node] at this ⊢
            omega
        · simp only [if_neg hrot, count_node]
          have := ihhi c
          omega
    · simp only [if_neg hgt]
      by_cases hadj : c.addr + c.size = a
      · simp only [if_pos hadj, count_combine]
        have := ihlo ⟨c.addr, c.size + s, c.ah⟩
        simp only [count_node]
        omega
      · simp only [if_neg hadj]
        by_cases hrot : rootSize (insert lo c) > s
        · simp only [if_pos hrot]
          cases hsub : insert lo c with
          | nil => exact absurd hsub (insert_ne_nil lo c)
          | node sa ss sl sh sb =>
            have := ihlo c
            rw [hsub] at this
            simp only [count_node] at this ⊢
            omega
        · simp only [if_neg hrot, count_node]
          have := ihlo c
          omega

/-- When the inserted chunk is contiguous with the chunk at the root, the
adjacency branch of `insert` merges them: the chunk count does not grow. -/
theorem count_insert_adj (a s : Nat) (lo hi : PTree) (b : Bool) (c : Chunk)
    (hs : 1 ≤ s) (hc : 1 ≤ c.size) (h : a + s = c.addr ∨ c.addr + c.size = a) :
    chunkCount (insert (.node a s lo hi b) c) ≤ chunkCount (.node a s lo hi b) := by
  rcases h with h | h
  · have hgt : c.addr > a := by omega
    simp only [insert, if_pos hgt, if_pos h, count_combine, count_node]
    have := count_insert_le hi ⟨a, s + c.size, b⟩
    omega
  · have hgt : ¬ (c.addr > a) := by omega
    simp only [insert, if_neg hgt, if_pos h, count_combine, count_node]
    have := count_insert_le lo ⟨c.addr, c.size + s, c.ah⟩
    omega

theorem heap_erase (t : PTree) (ht : heap t = true) : heap (erase t) = true := by
  match t with
  | .nil => exact rfl
  | .node a s .nil hi b =>
    rw [heap_node] at ht; simpa [erase] using ht.2.2.2
  | .node a s (.node la ls ll lh lb) .nil b =>
    rw [heap_node] at ht; simpa [erase] using ht.2.2.1
  | .node a s (.node la ls ll lh lb) (.node ha hs hl hh hb) b =>
    rw [heap_node] at ht
    simpa [erase] using (combine_main _ _ ht.2.2.1 ht.2.2.2).1

theorem sum_erase (a s : Nat) (lo hi : PTree) (b : Bool) :
    sumSizes (erase (.node a s lo hi b)) + s = sumSizes (.node a s lo hi b) := by
  match lo, hi with
  | .nil, hi => simp [erase]; omega
  | .node la ls ll lh lb, .nil => simp [erase]; omega
  | .node la ls ll lh lb, .node ha hs hl hh hb =>
    show sumSizes (combine _ _) + s = _
    rw [sum_combine]
    simp
    omega

theorem heap_replace (t : PTree) (c : Chunk) (ht : heap t = true) :
    heap (replace t c) = true := by
  match t with
  | .nil => exact heap_leafOf c
  | .node a s lo hi b =>
    rw [heap_node] at ht
    simp only [replace]
    split
    · next hgt =>
      rw [heap_node]
      exact ⟨by omega, by omega, ht.2.2.1, ht.2.2.2⟩
    · exact (combine_main _ _ (heap_erase _ (heap_node.2 ht)) (heap_leafOf c)).1

theorem sum_replace (a s : Nat) (lo hi : PTree) (b : Bool) (c : Chunk) :
    sumSizes (replace (.node a s lo hi b) c) + s =
    sumSizes (.node a s lo hi b) + c.size := by
  simp only [replace]
  split
  · simp; omega
  · rw [sum_combine]
    have := sum_erase a s lo hi b
    simp only [sumSizes_node] at this ⊢
    simp [leafOf]
    omega

theorem heap_resize (t : PTree) (s' : Nat) (ht : heap t = true) :
    heap (resize t s') = true := by
  match t with
  | .nil => exact rfl
  | .node a s lo hi b =>
    rw [heap_node] at ht
    obtain ⟨h1, h2, hlo, hhi⟩ := ht
    simp only [resize]
    by_cases hsw : rootSize lo > rootSize hi
    · simp only [if_pos hsw]
      split
      · exact (combine_main _ _ (combine_main _ _ hlo hhi).1 (by simp [heap_node])).1
      · next hle =>
        rw [heap_node]
        simp only [not_lt] at hle
        exact ⟨by omega, by omega, hlo, hhi⟩
    · simp only [if_neg hsw]
      split
      · exact (combine_main _ _ (combine_main _ _ hhi hlo).1 (by simp [heap_node])).1
      · next hle =>
        rw [heap_node]
        simp only [not_lt] at hle hsw
        exact ⟨by omega, by omega, hlo, hhi⟩

theorem sum_resize (a s : Nat) (lo hi : PTree) (b : Bool) (s' : Nat) :
    sumSizes (resize (.node a s lo hi b) s') + s =
    sumSizes (.node a s lo hi b) + s' := by
  simp only [resize]
  by_cases hsw : rootSize lo > rootSize hi <;>
    [simp only [if_pos hsw]; simp only [if_neg hsw]] <;>
  · split
    · rw [sum_combine, sum_combine]; simp; omega
    · simp; omega

theorem heap_flipAH (t : PTree) : heap (flipAH t) = heap t := by
  cases t <;> simp [flipAH, heap]

theorem sum_flipAH (t : PTree) : sumSizes (flipAH t) = sumSizes t := by
  cases t <;> simp [flipAH]

theorem rootSize_flipAH (t : PTree) : rootSize (flipAH t) = rootSize t := by
  cases t <;> simp [flipAH]

end PTree

theorem alignedPtr_down_le (p al : Nat) : alignedPtr p al true ≤ p := by
  simp [alignedPtr]

theorem alignedPtr_down_gt (p al : Nat) (h : 0 < al) :
    p < alignedPtr p al true + al := by
  have h2 := Nat.mod_lt p h
  show p < p - p % al + al
  omega

theorem alignedPtr_up_ge (p al : Nat) (h : 0 < al) : p ≤ alignedPtr p al false := by
  have h2 := Nat.mod_lt p h
  simp only [alignedPtr]
  split
  · omega
  · next hcond =>
    simp only [not_and, Decidable.not_not] at hcond
    have h4 := hcond trivial
    omega

theorem alignedPtr_up_lt (p al : Nat) (h : 0 < al) : alignedPtr p al false < p + al := by
  have h2 := Nat.mod_lt p h
  have h3 := Nat.mod_le p al
  simp only [alignedPtr]
  split
  · next hcond => omega
  · next hcond =>
    simp only [not_and, Decidable.not_not] at hcond
    omega

theorem alignedPtr_dvd (p al : Nat) (d : Bool) : al ∣ alignedPtr p al d := by
  have hq : al ∣ (p - p % al) := by
    refine ⟨p / al, ?_⟩
    have h1 := Nat.div_add_mod p al
    have h2 := Nat.mod_le p al
    omega
  simp only [alignedPtr]
  split
  · exact Nat.dvd_add hq (Nat.dvd_refl al)
  · exact hq

theorem recSum_append (l : List AllocRec) (r : AllocRec) :
    recSum (l ++ [r]) = recSum l + r.size := by
  simp [recSum]

/-- What a successful `allocate_impl` body pass guarantees: the new live
allocation is recorded behind the returned aligned pointer, its chunk is at
least as large as the adjusted request, the returned pointer is the
alignment of `p + sizeof(size_t) + sizeof(uint8_t)`, the heap invariant is
preserved, and the bytes moved from the tree to the allocation are exactly
the new chunk's size. -/
theorem allocAttempt_spec (st : PoolState) (n a : Nat) (ptr : Nat) (st' : PoolState)
    (hn : 1 ≤ n)
    (h : allocAttempt st n a = some (ptr, st')) :
    ∃ p ps, st'.allocs = st.allocs ++ [⟨ptr, p, ps⟩] ∧
      n ≤ ps ∧
      ptr = alignedPtr (p + szSize + szU8) a false ∧
      (heap st.root = true → heap st'.root = true) ∧
      sumSizes st'.root + ps = sumSizes st.root := by
  obtain ⟨root, allocs⟩ := st
  cases root with
  | nil => exact absurd h (by simp [allocAttempt])
  | node raddr rsize rlo rhi rah =>
    simp only [allocAttempt] at h
    by_cases hbig : rsize > n + szNode + alignNode
    · rw [if_pos hbig] at h
      cases rah with
      | true =>
        rw [if_pos rfl] at h
        simp only [finishAlloc, Option.some_inj] at h
        injection h with hptr hst
        subst hptr
        subst hst
        set q := alignedPtr (raddr + rsize - n) alignNode true with hq
        have hqle : q ≤ raddr + rsize - n := alignedPtr_down_le _ _
        have hqgt : raddr + rsize - n < q + alignNode :=
          alignedPtr_down_gt _ _ (by norm_num [alignNode])
        refine ⟨q, rsize - (q - raddr), rfl, ?_, rfl, ?_, ?_⟩
        · simp only [szNode, alignNode] at hbig hqgt
          omega
        · intro hh
          simpa [heap_flipAH] using heap_resize _ _ hh
        · have hsr := sum_resize raddr rsize rlo rhi true
            (rsize - (rsize - (q - raddr)))
          simp only [sumSizes_node] at hsr ⊢
          simp only [sum_flipAH]
          simp only [szNode, alignNode] at hbig
          omega
      | false =>
        rw [if_neg Bool.false_ne_true] at h
        simp only [finishAlloc, Option.some_inj] at h
        injection h with hptr hst
        subst hptr
        subst hst
        set q := alignedPtr (raddr + n) alignNode false with hq
        have hqge : raddr + n ≤ q := alignedPtr_up_ge _ _ (by norm_num [alignNode])
        have hqlt : q < raddr + n + alignNode := alignedPtr_up_lt _ _ (by norm_num [alignNode])
        refine ⟨raddr, rsize - (rsize - (q - raddr)), rfl, ?_, rfl, ?_, ?_⟩
        · simp only [szNode, alignNode] at hbig hqlt
          omega
        · intro hh
          simpa [heap_flipAH] using heap_replace _ ⟨q, rsize - (q - raddr), false⟩ hh
        · have hsr := sum_replace raddr rsize rlo rhi false ⟨q, rsize - (q - raddr), false⟩
          simp only [sumSizes_node] at hsr ⊢
          simp only [sum_flipAH]
          simp only [szNode, alignNode] at hbig
          omega
    · rw [if_neg hbig] at h
      by_cases hfit : rsize ≥ n
      · rw [if_pos hfit] at h
        simp only [finishAlloc, Option.some_inj] at h
        injection h with hptr hst
        subst hptr
        subst hst
        refine ⟨raddr, rsize, rfl, hfit, rfl, ?_, ?_⟩
        · intro hh
          exact heap_erase _ hh
        · have hse := sum_erase raddr rsize rlo rhi rah
          simp only [sumSizes_node] at hse ⊢
          omega
      · rw [if_neg hfit] at h
        exact absurd h (by simp)



/-- When even the largest chunk is smaller than the adjusted request, the
body pass reaches `auto_grow`. -/
theorem allocAttempt_small (st : PoolState) (n a : Nat)
    (h : maxChunkSize st < n) : allocAttempt st n a = none := by
  obtain ⟨root, allocs⟩ := st
  cases root with
  | nil => rfl
  | node raddr rsize rlo rhi rah =>
    simp only [maxChunkSize, rootSize_node] at h
    simp only [allocAttempt]
    rw [if_neg (by simp only [szNode, alignNode]; omega), if_neg (by omega)]

/-- When the largest chunk is at least the adjusted request, the body pass
succeeds. -/
theorem allocAttempt_isSome (st : PoolState) (n a : Nat)
    (hne : st.root ≠ .nil) (h : n ≤ maxChunkSize st) :
    (allocAttempt st n a).isSome = true := by
  obtain ⟨root, allocs⟩ := st
  cases root with
  | nil => exact absurd rfl hne
  | node raddr rsize rlo rhi rah =>
    simp only [allocAttempt]
    by_cases hbig : rsize > n + szNode + alignNode
    · rw [if_pos hbig]
      cases rah with
      | true => rw [if_pos rfl]; rfl
      | false => rw [if_neg Bool.false_ne_true]; rfl
    · simp only [maxChunkSize, rootSize_node] at h
      rw [if_neg hbig, if_pos h]
      rfl

theorem poolInv_empty : PoolInv poolEmpty := by
  constructor
  · rfl
  · intro r hr
    simp [poolEmpty] at hr

theorem poolInv_grow (st : PoolState) (addr bytes : Nat) (hb : 1 ≤ bytes)
    (hinv : PoolInv st) : PoolInv (growPool st addr bytes) := by
  refine ⟨?_, hinv.2⟩
  exact (insert_main st.root ⟨addr, bytes, false⟩ hb hinv.1).1

/-- `Step` preserves the pool invariant. -/
theorem poolInv_step (st st' : PoolState) (h : Step st st') (hinv : PoolInv st) :
    PoolInv st' := by
  cases h with
  | alloc n a ptr st2 hal =>
    obtain ⟨p, ps, hallocs, hps, hptr, hheap, hsum⟩ :=
      allocAttempt_spec _ (adjustN n a) (adjustA a) ptr _
        (le_trans (by norm_num [szNode, alignNode]) (Nat.le_max_right (n + adjustA a + szSize + szU8) (szNode + alignNode))) hal
    refine ⟨hheap hinv.1, ?_⟩
    intro r hr
    rw [hallocs] at hr
    rcases List.mem_append.1 hr with hr | hr
    · exact hinv.2 r hr
    · simp only [List.mem_singleton] at hr
      subst hr
      show 1 ≤ ps
      have h40 : szNode + alignNode ≤ adjustN n a := Nat.le_max_right _ _
      simp only [szNode, alignNode] at h40
      omega
  | dealloc r hr =>
    have hs : 1 ≤ r.size := hinv.2 r hr
    refine ⟨(insert_main st.root ⟨r.start, r.size, false⟩ hs hinv.1).1, ?_⟩
    intro r2 hr2
    exact hinv.2 r2 (List.mem_of_mem_erase hr2)

/-- `StepG` preserves the pool invariant. -/
theorem poolInv_stepG (st st' : PoolState) (h : StepG st st') (hinv : PoolInv st) :
    PoolInv st' := by
  cases h with
  | lift hstep => exact poolInv_step _ _ hstep hinv
  | grow addr bytes h1 h2 =>
    exact poolInv_grow st addr bytes (by simp only [szNode] at h1; omega) hinv

/-- The byte-conservation invariant: free bytes in the tree plus bytes held
by live allocations are constant across `Step`s. -/
theorem sum_step (st st' : PoolState) (h : Step st st') :
    sumSizes st'.root + recSum st'.allocs = sumSizes st.root + recSum st.allocs := by
  cases h with
  | alloc n a ptr st2 hal =>
    obtain ⟨p, ps, hallocs, hps, hptr, hheap, hsum⟩ :=
      allocAttempt_spec _ (adjustN n a) (adjustA a) ptr _
        (le_trans (by norm_num [szNode, alignNode]) (Nat.le_max_right (n + adjustA a + szSize + szU8) (szNode + alignNode))) hal
    rw [hallocs, recSum_append]
    have hg : (⟨ptr, p, ps⟩ : AllocRec).size = ps := rfl
    rw [hg]
    omega
  | dealloc r hr =>
    have hperm : st.allocs.Perm (r :: st.allocs.erase r) := List.perm_cons_erase hr
    have : recSum st.allocs = r.size + recSum (st.allocs.erase r) := by
      simpa [recSum] using hperm.map AllocRec.size |>.sum_eq
    simp only [deallocate, growPool, sum_insert]
    omega



theorem poolInv_reach (st st' : PoolState)
    (h : Relation.ReflTransGen StepG st st') (hinv : PoolInv st) : PoolInv st' := by
  induction h with
  | refl => exact hinv
  | tail hsteps hstep ih => exact poolInv_stepG _ _ hstep ih

theorem sum_reach (st st' : PoolState)
    (h : Relation.ReflTransGen Step st st') :
    sumSizes st'.root + recSum st'.allocs = sumSizes st.root + recSum st.allocs := by
  induction h with
  | refl => rfl
  | tail hsteps hstep ih => rw [sum_step _ _ hstep, ih]

theorem rootSize_le_sum (t : PTree) : rootSize t ≤ sumSizes t := by
  cases t with
  | nil => exact Nat.le_refl 0
  | node a s lo hi b => simp only [rootSize_node, sumSizes_node]; omega

/-- Steps are `StepG`s, so `Step` chains are `StepG` chains. -/
theorem reach_of_reachStep (st st' : PoolState)
    (h : Relation.ReflTransGen Step st st') :
    Relation.ReflTransGen StepG st st' := by
  induction h with
  | refl => exact .refl
  | tail hsteps hstep ih => exact .tail ih (.lift hstep)

/-- Each successfully scripted operation is a legal `StepG`. -/
theorem runOp_stepG (st st' : PoolState) (op : POp)
    (h : runOp st op = some st') : StepG st st' := by
  cases op with
  | alloc n a =>
    simp only [runOp] at h
    cases hal : allocateBare st n a with
    | none => rw [hal] at h; simp at h
    | some pr =>
      rw [hal] at h
      simp only [Option.map_some', Option.some_inj] at h
      subst h
      exact .lift (Step.alloc _ n a pr.1 _ hal)
  | free i =>
    simp only [runOp] at h
    cases hidx : st.allocs[i]? with
    | none => rw [hidx] at h; simp at h
    | some r =>
      rw [hidx] at h
      simp only [Option.map_some', Option.some_inj] at h
      subst h
      exact .lift (Step.dealloc _ r (List.getElem?_mem hidx))
  | grow addr bytes =>
    simp only [runOp] at h
    split at h
    · next hcond =>
      simp only [Option.some_inj] at h
      subst h
      exact .grow _ addr bytes hcond.1 hcond.2
    · simp at h

theorem runOps_reachG (st : PoolState) (ops : List POp) (st' : PoolState)
    (h : runOps st ops = some st') : Relation.ReflTransGen StepG st st' := by
  induction ops generalizing st with
  | nil =>
    simp only [runOps, Option.some_inj] at h
    subst h
    exact .refl
  | cons op ops ih =>
    simp only [runOps] at h
    cases hop : runOp st op with
    | none => rw [hop] at h; simp at h
    | some mid =>
      rw [hop] at h
      simp only [Option.some_bind] at h
      exact .head (runOp_stepG st mid op hop) (ih mid h)

/-- Like `runOp_stepG`, but a grow-free operation is a plain `Step`. -/
theorem runOp_step (st st' : PoolState) (op : POp)
    (hng : ∀ addr bytes, op ≠ .grow addr bytes)
    (h : runOp st op = some st') : Step st st' := by
  cases op with
  | alloc n a =>
    simp only [runOp] at h
    cases hal : allocateBare st n a with
    | none => rw [hal] at h; simp at h
    | some pr =>
      rw [hal] at h
      simp only [Option.map_some', Option.some_inj] at h
      subst h
      exact Step.alloc _ n a pr.1 _ hal
  | free i =>
    simp only [runOp] at h
    cases hidx : st.allocs[i]? with
    | none => rw [hidx] at h; simp at h
    | some r =>
      rw [hidx] at h
      simp only [Option.map_some', Option.some_inj] at h
      subst h
      exact Step.dealloc _ r (List.getElem?_mem hidx)
  | grow a2 b2 => exact absurd rfl (hng a2 b2)

theorem runOps_reachStep (st : PoolState) (ops : List POp) (st' : PoolState)
    (hng : noGrow ops = true)
    (h : runOps st ops = some st') : Relation.ReflTransGen Step st st' := by
  induction ops generalizing st with
  | nil =>
    simp only [runOps, Option.some_inj] at h
    subst h
    exact .refl
  | cons op ops ih =>
    simp only [runOps] at h
    cases hop : runOp st op with
    | none => rw [hop] at h; simp at h
    | some mid =>
      rw [hop] at h
      simp only [Option.some_bind] at h
      have hng2 : noGrow ops = true := by
        cases op <;> simp_all [noGrow]
      have hne : ∀ addr bytes, op ≠ POp.grow addr bytes := by
        intro addr bytes hop2
        subst hop2
        simp [noGrow] at hng
      exact .head (runOp_step st mid op hne hop) (ih mid hng2 h)



theorem dvd_adjustA (a k : Nat) (hk : a = 2 ^ k) : a ∣ adjustA a := by
  rcases le_or_lt a alignVoid with hle | hlt
  · have h8 : adjustA a = alignVoid := by simp [adjustA]; omega
    rw [h8]
    subst hk
    have hk3 : k ≤ 3 := by
      by_contra hgt
      push_neg at hgt
      have : (2 : Nat) ^ 4 ≤ 2 ^ k := Nat.pow_le_pow_right (by norm_num) (by omega)
      simp [alignVoid] at hle
      omega
    have : (2 : Nat) ^ k ∣ 2 ^ 3 := pow_dvd_pow 2 hk3
    simpa [alignVoid] using this
  · have h8 : adjustA a = a := by simp [adjustA]; omega
    rw [h8]

theorem alignVoid_dvd_adjustA (a k : Nat) (hk : a = 2 ^ k) : alignVoid ∣ adjustA a := by
  rcases le_or_lt a alignVoid with hle | hlt
  · have h8 : adjustA a = alignVoid := by simp [adjustA]; omega
    rw [h8]
  · have h8 : adjustA a = a := by simp [adjustA]; omega
    rw [h8]
    subst hk
    have hk3 : 3 ≤ k := by
      by_contra hgt
      push_neg at hgt
      have : (2 : Nat) ^ k ≤ 2 ^ 2 := Nat.pow_le_pow_right (by norm_num) (by omega)
      simp [alignVoid] at hlt
      omega
    have : (2 : Nat) ^ 3 ∣ 2 ^ k := pow_dvd_pow 2 hk3
    simpa [alignVoid] using this

theorem szNA_le_adjustN (n a : Nat) : szNode + alignNode ≤ adjustN n a :=
  Nat.le_max_right _ _

theorem payload_le_adjustN (n a : Nat) :
    n + adjustA a + szSize + szU8 ≤ adjustN n a :=
  Nat.le_max_left _ _

theorem alignVoid_le_adjustA (a : Nat) : alignVoid ≤ adjustA a := Nat.le_max_right _ _

theorem count_eq_zero (t : PTree) : chunkCount t = 0 ↔ t = .nil := by
  cases t <;> simp

theorem count_one_rootSize (t : PTree) (h : chunkCount t = 1) :
    rootSize t = sumSizes t := by
  cases t with
  | nil => rfl
  | node a s lo hi b =>
    simp only [count_node] at h
    have hlo : chunkCount lo = 0 := by omega
    have hhi : chunkCount hi = 0 := by omega
    rw [count_eq_zero] at hlo hhi
    subst hlo
    subst hhi
    simp

/-! ### The claims -/

/-- C5: if the upstream allocator fails (throws) during Pool Arena `grow`,
the failure propagates unchanged to the caller and no partial state is
left: on either upstream failure `grow_alloc` leaves the arena (chunk tree,
span list, span-list array) unchanged and retains no upstream allocation. -/
theorem C5_grow_failure_atomic (ar : ArenaState) (u : Upstream) (bytes : Nat)
    (r1 r2 : Option Nat) (hfail : r1 = none ∨ r2 = none) :
    (growAlloc ar u bytes r1 r2).ok = false ∧
    (growAlloc ar u bytes r1 r2).ar = ar ∧
    (growAlloc ar u bytes r1 r2).up.live = u.live := by
  rcases hfail with h | h
  · subst h
    exact ⟨rfl, rfl, rfl⟩
  · subst h
    cases r1 with
    | none => exact ⟨rfl, rfl, rfl⟩
    | some p =>
      refine ⟨rfl, rfl, ?_⟩
      show (((p, max bytes szNode) ::ₘ u.live).erase (p, max bytes szNode)) = u.live
      exact Multiset.erase_cons_head _ _

/-- Witness for C5 at a concrete arena and failing upstream. -/
theorem C5_grow_failure_atomic_witness :
    (growAlloc arenaEmpty ⟨0⟩ 5 none none).ok = false ∧
    (growAlloc arenaEmpty ⟨0⟩ 5 none none).ar = arenaEmpty ∧
    (growAlloc arenaEmpty ⟨0⟩ 5 none none).up.live = (⟨0⟩ : Upstream).live :=
  C5_grow_failure_atomic arenaEmpty ⟨0⟩ 5 none none (Or.inl rfl)

/-- C6: for every successful `allocate(n, a)` with `a` a power of two, the
address of the returned pointer is a multiple of `a`. -/
theorem C6_alignment (st : PoolState) (n a k ptr : Nat) (st' : PoolState)
    (hpow : a = 2 ^ k) (h : allocateBare st n a = some (ptr, st')) :
    a ∣ ptr := by
  obtain ⟨p, ps, hallocs, hps, hptr, hheap, hsum⟩ :=
    allocAttempt_spec st (adjustN n a) (adjustA a) ptr st'
      (le_trans (by norm_num [szNode, alignNode]) (szNA_le_adjustN n a)) h
  rw [hptr]
  exact dvd_trans (dvd_adjustA a k hpow) (alignedPtr_dvd _ _ _)

/-- Witness for C6: `allocate(100, 8)` on a fresh 4096-byte pool returns
pointer 16, a multiple of 8. -/
theorem C6_alignment_witness : (8 : Nat) ∣ 16 :=
  C6_alignment exSt 100 8 3 16 exSt2 rfl (by decide)

/-- C10: the effective alignment is `max(a, alignof(void*))`: every
successful allocation, even one requesting `a < alignof(void*)`, returns a
pointer aligned to that clamped alignment and hence to at least
`alignof(void*)`. -/
theorem C10_min_alignment (st : PoolState) (n a k ptr : Nat) (st' : PoolState)
    (hpow : a = 2 ^ k) (h : allocateBare st n a = some (ptr, st')) :
    (∃ p, ptr = alignedPtr (p + szSize + szU8) (max a alignVoid) false) ∧
    alignVoid ∣ ptr := by
  obtain ⟨p, ps, hallocs, hps, hptr, hheap, hsum⟩ :=
    allocAttempt_spec st (adjustN n a) (adjustA a) ptr st'
      (le_trans (by norm_num [szNode, alignNode]) (szNA_le_adjustN n a)) h
  refine ⟨⟨p, hptr⟩, ?_⟩
  rw [hptr]
  exact dvd_trans (alignVoid_dvd_adjustA a k hpow) (alignedPtr_dvd _ _ _)

/-- Witness for C10: requesting alignment 2 (less than `alignof(void*)`)
still yields an 8-aligned pointer. -/
theorem C10_min_alignment_witness :
    ((∃ p, 16 = alignedPtr (p + szSize + szU8) (max 2 alignVoid) false) ∧
      alignVoid ∣ 16) :=
  C10_min_alignment exSt 100 2 1 16 exSt2 rfl (by decide)

/-- C8 (counterexample): `size(p)` does not recover the requested size
exactly.  From a fresh 4096-byte pool, `allocate(100, 8)` carves a 120-byte
chunk whose header/alignment offset is 16, so `size(p) = 104 ≠ 100`. -/
theorem C8_counterexample :
    allocateBare exSt 100 8 = some (16, exSt2) ∧
    exSt2.allocs = [⟨16, 0, 120⟩] ∧
    sizeQuery ⟨16, 0, 120⟩ = 104 ∧ ¬ (sizeQuery ⟨16, 0, 120⟩ = 100) :=
  ⟨by decide, by decide, by decide, by decide⟩

/-- C8 (amended): for a live allocation from `allocate(n, a)`, `size(p)`
returns the current chunk size minus the header/alignment overhead already
consumed, which is at least (but not in general equal to) the requested
`n`. -/
theorem C8_size_recovers_at_least (st : PoolState) (n a ptr : Nat)
    (st' : PoolState) (h : allocateBare st n a = some (ptr, st')) :
    ∃ r : AllocRec, st'.allocs = st.allocs ++ [r] ∧ r.ptr = ptr ∧
      sizeQuery r = r.size - (r.ptr - r.start) ∧
      n ≤ sizeQuery r := by
  obtain ⟨p, ps, hallocs, hps, hptr, hheap, hsum⟩ :=
    allocAttempt_spec st (adjustN n a) (adjustA a) ptr st'
      (le_trans (by norm_num [szNode, alignNode]) (szNA_le_adjustN n a)) h
  refine ⟨⟨ptr, p, ps⟩, hallocs, rfl, rfl, ?_⟩
  have hup1 : p + szSize + szU8 ≤ ptr := by
    rw [hptr]
    exact alignedPtr_up_ge _ _
      (lt_of_lt_of_le (by norm_num [alignVoid]) (alignVoid_le_adjustA a))
  have hup2 : ptr < p + szSize + szU8 + adjustA a := by
    rw [hptr]
    exact alignedPtr_up_lt _ _
      (lt_of_lt_of_le (by norm_num [alignVoid]) (alignVoid_le_adjustA a))
  have hpay := payload_le_adjustN n a
  simp only [sizeQuery]
  simp only [szSize, szU8] at hup1 hup2 hpay ⊢
  omega

/-- Witness for the amended C8 on the concrete 100-byte allocation. -/
theorem C8_size_recovers_at_least_witness :
    ∃ r : AllocRec, exSt2.allocs = exSt.allocs ++ [r] ∧ r.ptr = 16 ∧
      sizeQuery r = r.size - (r.ptr - r.start) ∧ 100 ≤ sizeQuery r :=
  C8_size_recovers_at_least exSt 100 8 16 exSt2 (by decide)

/-- C7 (counterexample): with a single 50-byte chunk, `max_size(1) = 40 > 0`
yet `allocate(40, 1)` fails without growth: `max_size` computes its overhead
from the raw alignment (line 202) while `allocate` first clamps the
alignment to `alignof(void*)` (line 353). -/
theorem C7_counterexample :
    maxSize ⟨.node 0 50 .nil .nil false, []⟩ 1 = 40 ∧
    0 < maxSize ⟨.node 0 50 .nil .nil false, []⟩ 1 ∧
    allocateBare ⟨.node 0 50 .nil .nil false, []⟩
      (maxSize ⟨.node 0 50 .nil .nil false, []⟩ 1) 1 = none :=
  ⟨by decide, by decide, by decide⟩

/-- C7 (amended): for alignments of at least `alignof(void*)`, whenever
`max_size(a) > 0`, `allocate(max_size(a), a)` succeeds without growth and
`allocate(m, a)` fails without growth for every `m > max_size(a)`;
`max_size(a)` is 0 when even the smallest usable chunk would not fit its
worst-case overhead (though small requests may still succeed then). -/
theorem C7_maxSize (st : PoolState) (a : Nat) (ha : alignVoid ≤ a)
    (hpos : 0 < maxSize st a) :
    (∃ r, allocateBare st (maxSize st a) a = some r) ∧
    (∀ m, maxSize st a < m → allocateBare st m a = none) := by
  have hA : adjustA a = a := max_eq_left ha
  simp only [maxSize] at hpos
  by_cases h1 : maxChunkSize st < a + szSize + szU8
  · rw [if_pos h1] at hpos
    exact absurd hpos (by omega)
  · rw [if_neg h1] at hpos
    by_cases h2 : maxChunkSize st - (a + szSize + szU8) < szNode + alignNode
    · rw [if_pos h2] at hpos
      exact absurd hpos (by omega)
    · rw [if_neg h2] at hpos
      have hmeq : maxSize st a = maxChunkSize st - (a + szSize + szU8) := by
        simp only [maxSize]
        rw [if_neg h1, if_neg h2]
      have hroot : st.root ≠ .nil := by
        intro hnil
        have hz : maxChunkSize st = 0 := by simp [maxChunkSize, hnil]
        simp only [szSize, szU8, szNode, alignNode] at h1 h2
        omega
      constructor
      · have hN : adjustN (maxSize st a) a = maxChunkSize st := by
          simp only [adjustN, hA, hmeq]
          simp only [szSize, szU8, szNode, alignNode] at h1 h2 ⊢
          omega
        have hsome := allocAttempt_isSome st (adjustN (maxSize st a) a)
          (adjustA a) hroot (by rw [hN])
        rw [allocateBare]
        cases hcase : allocAttempt st (adjustN (maxSize st a) a) (adjustA a) with
        | none => rw [hcase] at hsome; exact absurd hsome (by simp)
        | some r => exact ⟨r, rfl⟩
      · intro m hm
        rw [allocateBare]
        apply allocAttempt_small
        simp only [adjustN, hA]
        rw [hmeq] at hm
        simp only [szSize, szU8, szNode, alignNode] at h1 h2 hm ⊢
        omega

/-- Witness for the amended C7 on a fresh 4096-byte pool at alignment 8. -/
theorem C7_maxSize_witness :
    (∃ r, allocateBare exSt (maxSize exSt 8) 8 = some r) ∧
    (∀ m, maxSize exSt 8 < m → allocateBare exSt m 8 = none) :=
  C7_maxSize exSt 8 (by decide) (by decide)

/-- C9: growing with span A and then with a physically contiguous span B
yields a single chunk of combined size, and the node count (1) equals that
of growing once with the summed span. -/
theorem C9_contiguous_grow (a1 s1 a2 s2 : Nat)
    (h1 : szNode ≤ s1) (h2 : szNode ≤ s2)
    (hadj : a1 + s1 = a2 ∨ a2 + s2 = a1) :
    (growPool (growPool poolEmpty a1 s1) a2 s2).root =
      leafOf ⟨min a1 a2, s1 + s2, false⟩ ∧
    chunkCount (growPool (growPool poolEmpty a1 s1) a2 s2).root = 1 ∧
    chunkCount (growPool poolEmpty (min a1 a2) (s1 + s2)).root = 1 := by
  simp only [szNode] at h1 h2
  refine ⟨?_, ?_, ?_⟩
  · show PTree.insert (.node a1 s1 .nil .nil false) ⟨a2, s2, false⟩ = _
    rcases hadj with hadj | hadj
    · have hgt : a2 > a1 := by omega
      have hmin : min a1 a2 = a1 := by omega
      rw [hmin]
      simp only [PTree.insert, if_pos hgt, if_pos hadj, leafOf]
      simp
    · have hgt : ¬ (a2 > a1) := by omega
      have hmin : min a1 a2 = a2 := by omega
      rw [hmin]
      simp only [PTree.insert, if_neg hgt, if_pos hadj, leafOf]
      show combine (.node a2 (s2 + s1) .nil .nil false) .nil = _
      rw [combine_nil_right, Nat.add_comm s2 s1]
  · rcases hadj with hadj | hadj
    · have hgt : a2 > a1 := by omega
      show chunkCount (PTree.insert (.node a1 s1 .nil .nil false) ⟨a2, s2, false⟩) = 1
      simp only [PTree.insert, if_pos hgt, if_pos hadj, leafOf]
      simp
    · have hgt : ¬ (a2 > a1) := by omega
      show chunkCount (PTree.insert (.node a1 s1 .nil .nil false) ⟨a2, s2, false⟩) = 1
      simp only [PTree.insert, if_neg hgt, if_pos hadj, leafOf]
      simp
  · rfl

/-- Witness for C9 with the spans `[0, 64)` and `[64, 96)`. -/
theorem C9_contiguous_grow_witness :
    (growPool (growPool poolEmpty 0 64) 64 32).root =
      leafOf ⟨min 0 64, 64 + 32, false⟩ ∧
    chunkCount (growPool (growPool poolEmpty 0 64) 64 32).root = 1 ∧
    chunkCount (growPool poolEmpty (min 0 64) (64 + 32)).root = 1 :=
  C9_contiguous_grow 0 64 64 32 (by decide) (by decide) (Or.inl rfl)

/-- C4: `allocate` on an empty bare pool fails (`auto_grow` throws
`std::bad_alloc`, line 421); the same call on an empty Pool Arena with a
non-failing upstream makes exactly one `grow` request, of twice the
adjusted size - at least `n` plus header/alignment overhead - and then
succeeds. -/
theorem C4_exhaustion_and_growth :
    (∀ n a : Nat, allocateBare poolEmpty n a = none) ∧
    (∀ (n a : Nat) (u : Nat → Nat × Nat),
      ∃ out : Nat × ArenaState × List Nat,
        allocArena 2 arenaEmpty n a u = some out ∧
        out.2.2 = [adjustN n a * 2] ∧
        n + (adjustA a + szSize + szU8) ≤ adjustN n a * 2) := by
  constructor
  · intro n a
    rfl
  · intro n a u
    have h40 : szNode + alignNode ≤ adjustN n a := szNA_le_adjustN n a
    simp only [szNode, alignNode] at h40
    have h1 : allocAttempt arenaEmpty.pool (adjustN n a) (adjustA a) = none := rfl
    have hreq : autoGrowReq arenaEmpty (adjustN n a) = adjustN n a * 2 := by
      simp [autoGrowReq, arenaSize, arenaEmpty]
    have hbytes : max (adjustN n a * 2) szNode = adjustN n a * 2 := by
      simp only [szNode]
      omega
    have hga : (growAlloc arenaEmpty ⟨0⟩ (adjustN n a * 2)
        (some (u 0).1) (some (u 0).2)).ar =
        ⟨⟨.node (u 0).1 (adjustN n a * 2) .nil .nil false, []⟩,
          [((u 0).1, adjustN n a * 2)], some ((u 0).2, szSpan * 1)⟩ := by
      simp only [growAlloc, hbytes, arenaEmpty, growPool, poolEmpty]
      rfl
    obtain ⟨pr, hpr⟩ : ∃ pr, allocAttempt
        ⟨.node (u 0).1 (adjustN n a * 2) .nil .nil false, []⟩
        (adjustN n a) (adjustA a) = some pr := by
      have hs := allocAttempt_isSome
        ⟨.node (u 0).1 (adjustN n a * 2) .nil .nil false, []⟩
        (adjustN n a) (adjustA a) (by simp)
        (by simp only [maxChunkSize, rootSize_node]; omega)
      exact Option.isSome_iff_exists.1 hs
    refine ⟨(pr.1, ⟨pr.2, [((u 0).1, adjustN n a * 2)], some ((u 0).2, szSpan * 1)⟩,
      [adjustN n a * 2]), ?_, rfl, ?_⟩
    · simp only [allocArena, allocArenaGo, h1, hreq, hga, hpr, List.nil_append]
    · have hpay := payload_le_adjustN n a
      omega



/-- C2: after every sequence of operations (grow, allocate, deallocate) from
the empty pool, and under each underlying tree operation (combine, insert,
erase, replace, resize) on size-heaps, every chunk's size is at least the
size of each of its children. -/
theorem C2_heap_invariant :
    (∀ st : PoolState, Relation.ReflTransGen StepG poolEmpty st →
      heap st.root = true) ∧
    (∀ t u : PTree, heap t = true → heap u = true →
      heap (combine t u) = true) ∧
    (∀ (t : PTree) (c : Chunk), 1 ≤ c.size → heap t = true →
      heap (PTree.insert t c) = true) ∧
    (∀ t : PTree, heap t = true → heap (erase t) = true) ∧
    (∀ (t : PTree) (c : Chunk), heap t = true → heap (replace t c) = true) ∧
    (∀ (t : PTree) (s : Nat), heap t = true → heap (resize t s) = true) := by
  refine ⟨?_, ?_, ?_, ?_, ?_, ?_⟩
  · intro st h
    exact (poolInv_reach poolEmpty st h poolInv_empty).1
  · intro t u ht hu
    exact (combine_main t u ht hu).1
  · intro t c hc ht
    exact (insert_main t c hc ht).1
  · intro t ht
    exact heap_erase t ht
  · intro t c ht
    exact heap_replace t c ht
  · intro t s ht
    exact heap_resize t s ht

/-- Witness for C2: a grow/allocate/deallocate run, and concrete `combine`
and `insert` calls, all preserve the heap property. -/
theorem C2_heap_invariant_witness :
    heap (⟨.node 0 4096 .nil .nil false, []⟩ : PoolState).root = true ∧
    heap (combine (.node 0 64 .nil .nil false) (.node 100 32 .nil .nil false)) = true ∧
    heap (PTree.insert (.node 0 64 .nil .nil false) ⟨100, 32, false⟩) = true :=
  ⟨C2_heap_invariant.1 ⟨.node 0 4096 .nil .nil false, []⟩
      (runOps_reachG poolEmpty [.grow 0 4096, .alloc 100 8, .free 0]
        ⟨.node 0 4096 .nil .nil false, []⟩ (by decide)),
   C2_heap_invariant.2.1 _ _ (by decide) (by decide),
   C2_heap_invariant.2.2.1 _ ⟨100, 32, false⟩ (by decide) (by decide)⟩

/-- C3 (counterexample): a reachable state whose tree holds two physically
contiguous chunks (`[0, 632)` and `[632, 768)`) at the same time, refuting
the claimed non-adjacency invariant: `insert` checks contiguity only along
one root-to-leaf descent path, and the tree is not globally ordered by
address, so off-path neighbors are missed and survive. -/
theorem C3_counterexample :
    Relation.ReflTransGen StepG poolEmpty cxFinal ∧
    hasAdjacent cxFinal.root = true := by
  constructor
  · exact runOps_reachG poolEmpty (POp.grow 0 768 :: cxOps) cxFinal (by decide)
  · decide

/-- C3 (amended): insertion detects and merges contiguity between the
incoming chunk and the chunks met on its descent path - in particular a
chunk contiguous with the tree's root is always merged, so the chunk count
does not grow while the inserted bytes are fully absorbed - but chunks in
different subtrees can remain contiguous, so two physically contiguous
chunks can be present in the tree at the same time. -/
theorem C3_insert_merges_on_path (a s : Nat) (lo hi : PTree) (b : Bool)
    (c : Chunk) (hs : 1 ≤ s) (hc : 1 ≤ c.size)
    (hadj : a + s = c.addr ∨ c.addr + c.size = a) :
    chunkCount (PTree.insert (.node a s lo hi b) c) ≤
      chunkCount (.node a s lo hi b) ∧
    sumSizes (PTree.insert (.node a s lo hi b) c) =
      sumSizes (.node a s lo hi b) + c.size :=
  ⟨count_insert_adj a s lo hi b c hs hc hadj, sum_insert _ c⟩

/-- Witness for the amended C3: inserting `[64, 96)` into a tree whose root
chunk is `[0, 64)` merges them. -/
theorem C3_insert_merges_on_path_witness :
    chunkCount (PTree.insert (.node 0 64 .nil .nil false) ⟨64, 32, false⟩) ≤
      chunkCount (.node 0 64 .nil .nil false) ∧
    sumSizes (PTree.insert (.node 0 64 .nil .nil false) ⟨64, 32, false⟩) =
      sumSizes (.node 0 64 .nil .nil false) + (⟨64, 32, false⟩ : Chunk).size :=
  C3_insert_merges_on_path 0 64 .nil .nil false ⟨64, 32, false⟩ (by decide)
    (by decide) (Or.inl rfl)

/-- C1 (counterexample): the round-trip property fails.  Running `cxOps` on
a pool grown once with the single 768-byte span `[0, 768)` returns it to
zero outstanding allocations, yet `max_chunk_size()` is 632, not 768,
because two contiguous free chunks missed coalescing. -/
theorem C1_counterexample :
    Relation.ReflTransGen Step (growPool poolEmpty 0 768) cxFinal ∧
    cxFinal.allocs = [] ∧
    maxChunkSize cxFinal ≠ 768 := by
  refine ⟨runOps_reachStep (growPool poolEmpty 0 768) cxOps cxFinal
    (by decide) (by decide), by decide, by decide⟩

/-- C1 (amended): for any sequence of successful allocate/deallocate calls
(no intervening grow) returning the pool to zero outstanding allocations,
no bytes are lost: the total free size in the tree equals the pool's total
backing size, and `max_chunk_size()` is at most that size, with equality
whenever the tree has coalesced to a single chunk (it can be smaller when
coalescing was missed). -/
theorem C1_roundtrip_conservation (base total : Nat) (_htot : szNode ≤ total)
    (st : PoolState)
    (h : Relation.ReflTransGen Step (growPool poolEmpty base total) st)
    (hzero : st.allocs = []) :
    sumSizes st.root = total ∧ maxChunkSize st ≤ total ∧
    (chunkCount st.root = 1 → maxChunkSize st = total) := by
  have hsum := sum_reach _ _ h
  have hinit : sumSizes (growPool poolEmpty base total).root +
      recSum (growPool poolEmpty base total).allocs = total := by
    show sumSizes (PTree.insert .nil ⟨base, total, false⟩) + recSum [] = total
    simp [PTree.insert, leafOf, recSum]
  rw [hzero] at hsum
  have hrec : recSum [] = 0 := rfl
  rw [hrec] at hsum
  have hfree : sumSizes st.root = total := by omega
  refine ⟨hfree, ?_, ?_⟩
  · have hmax := rootSize_le_sum st.root
    simp only [maxChunkSize]
    omega
  · intro hone
    have hcnt := count_one_rootSize st.root hone
    simp only [maxChunkSize]
    omega

/-- Witness for the amended C1: an allocate/deallocate pair on a 4096-byte
pool conserves all bytes and restores `max_chunk_size()` to 4096. -/
theorem C1_roundtrip_conservation_witness :
    sumSizes (⟨.node 0 4096 .nil .nil false, []⟩ : PoolState).root = 4096 ∧
    maxChunkSize ⟨.node 0 4096 .nil .nil false, []⟩ ≤ 4096 ∧
    (chunkCount (⟨.node 0 4096 .nil .nil false, []⟩ : PoolState).root = 1 →
      maxChunkSize ⟨.node 0 4096 .nil .nil false, []⟩ = 4096) :=
  C1_roundtrip_conservation 0 4096 (by decide) ⟨.node 0 4096 .nil .nil false, []⟩
    (runOps_reachStep (growPool poolEmpty 0 4096) [.alloc 100 8, .free 0]
      ⟨.node 0 4096 .nil .nil false, []⟩ (by decide) (by decide)) rfl

end JwAlloc
